import Mathlib

/-!
Shallow embedding of the LinkForty React Native SDK's link-resolution and
attribution-reconciliation core (`DeepLinkHandler` and the install-report
normalization in `LinkFortySDK`).

JavaScript strings are modelled as `List Char` (Unicode scalar values).
The JS `Map` used for `searchParams` is modelled as an association list
with `Map.set` semantics (overwrite in place, append new keys at the end).
Functions that can throw are modelled with `Option` / `Except`, and the
side effects that the claims observe (host-callback invocations, issued
HTTP requests) are returned explicitly as lists.
-/

/-- JS strings modelled as lists of Unicode scalar values. -/
abbrev Str := List Char

/-- Index of the first occurrence of a character: JS `String.indexOf`
with `none` in place of `-1`. -/
def idxOf (c : Char) : Str → Option Nat
  | [] => none
  | x :: rest => if x = c then some 0 else (idxOf c rest).map (· + 1)

/-- Index of the first occurrence of a substring: JS `String.indexOf`. -/
def findSub (pat : Str) : Str → Option Nat
  | [] => if pat = [] then some 0 else none
  | x :: rest =>
    if pat.isPrefixOf (x :: rest) then some 0 else (findSub pat rest).map (· + 1)

/-- JS `String.split(sep)`: `"".split(sep) = [""]`, `"&".split("&") = ["", ""]`. -/
def jsSplit (sep : Char) : Str → List Str
  | [] => [[]]
  | c :: rest =>
    match jsSplit sep rest with
    | [] => [[c]]
    | h :: t => if c = sep then [] :: h :: t else (c :: h) :: t

/-- Join with a separator character (left inverse of `jsSplit`). -/
def joinSep (sep : Char) : List Str → Str
  | [] => []
  | [s] => s
  | s :: rest => s ++ sep :: joinSep sep rest

/-- JS `Map.set`: overwrite in place when the key is already present,
append at the end otherwise. -/
def mapSet (m : List (Str × Str)) (k v : Str) : List (Str × Str) :=
  match m with
  | [] => [(k, v)]
  | (k0, v0) :: rest => if k0 = k then (k, v) :: rest else (k0, v0) :: mapSet rest k v

/-- JS `Map.get`, with `none` in place of `undefined`. -/
def mapGet (m : List (Str × Str)) (k : Str) : Option Str :=
  (m.find? (fun kv => kv.1 == k)).map (fun kv => kv.2)

/-- Numeric value of one hexadecimal digit (both cases accepted,
as in the ECMAScript `Decode` algorithm). -/
def hexVal (c : Char) : Option Nat :=
  let n := c.toNat
  if 48 ≤ n ∧ n ≤ 57 then some (n - 48)
  else if 65 ≤ n ∧ n ≤ 70 then some (n - 55)
  else if 97 ≤ n ∧ n ≤ 102 then some (n - 87)
  else none

/-- Upper-case hexadecimal digit for a value below 16, as produced by
JS `encodeURIComponent`. -/
def hexDigitUpper (n : Nat) : Char :=
  Char.ofNat (if n < 10 then 48 + n else 55 + n)

/-- Intermediate token stream for the ECMAScript `Decode` algorithm: a
literal character, or the byte value of one `%XX` escape. -/
inductive Tok where
  | chr (c : Char)
  | byte (b : Nat)
  deriving DecidableEq

/-- First phase of `decodeURIComponent`: turn every `%XX` escape into a
byte token, failing on a malformed escape (fewer than two following
characters, or non-hex digits). -/
def tokenize : Str → Option (List Tok)
  | [] => some []
  | [c] => if c = '%' then none else some [Tok.chr c]
  | [c, c1] => if c = '%' then none else (tokenize [c1]).map (fun ts => Tok.chr c :: ts)
  | c :: h1 :: h2 :: rest2 =>
    if c = '%' then
      match hexVal h1, hexVal h2 with
      | some a, some b => (tokenize rest2).map (fun ts => Tok.byte (16 * a + b) :: ts)
      | _, _ => none
    else (tokenize (h1 :: h2 :: rest2)).map (fun ts => Tok.chr c :: ts)

/-- A UTF-8 continuation byte. -/
def contByte (b : Nat) : Prop := 128 ≤ b ∧ b ≤ 191

instance (b : Nat) : Decidable (contByte b) := by
  unfold contByte; infer_instance

/-- Second phase of `decodeURIComponent`, as a token-at-a-time UTF-8
state machine. The state is `none` between scalars, or
`some (acc, need, lo)` inside a multi-byte sequence: `acc` the
accumulated value, `need` the number of continuation bytes still
expected, `lo` the smallest legal value for the sequence length (the
shortest-form check). A completed scalar must satisfy
`lo ≤ n < 0x110000` and must not be a surrogate — exactly the sequences
the ECMAScript `Decode` algorithm accepts; a literal character while a
sequence is pending, a non-continuation byte, a premature end, an
overlong form, or an out-of-range value is a failure (JS throws
`URIError`). -/
def decodeLoop : Option (Nat × Nat × Nat) → List Tok → Option (List Char)
  | none, [] => some []
  | some _, [] => none
  | none, Tok.chr c :: rest => (decodeLoop none rest).map (fun s => c :: s)
  | none, Tok.byte b0 :: rest =>
    if b0 ≤ 127 then (decodeLoop none rest).map (fun s => Char.ofNat b0 :: s)
    else if 194 ≤ b0 ∧ b0 ≤ 223 then decodeLoop (some (b0 - 192, 1, 128)) rest
    else if 224 ≤ b0 ∧ b0 ≤ 239 then decodeLoop (some (b0 - 224, 2, 2048)) rest
    else if 240 ≤ b0 ∧ b0 ≤ 244 then decodeLoop (some (b0 - 240, 3, 65536)) rest
    else none
  | some _, Tok.chr _ :: _ => none
  | some (acc, need, lo), Tok.byte b :: rest =>
    if contByte b then
      if need = 1 then
        if lo ≤ acc * 64 + (b - 128) ∧ acc * 64 + (b - 128) < 1114112 ∧
            ¬(55296 ≤ acc * 64 + (b - 128) ∧ acc * 64 + (b - 128) ≤ 57343) then
          (decodeLoop none rest).map (fun s => Char.ofNat (acc * 64 + (b - 128)) :: s)
        else none
      else decodeLoop (some (acc * 64 + (b - 128), need - 1, lo)) rest
    else none

/-- Decode a complete token stream (initial state: between scalars). -/
def decodeTokens (ts : List Tok) : Option (List Char) :=
  decodeLoop none ts

/-- JS `decodeURIComponent`, modelled on `List Char`; `none` models a
thrown `URIError`. -/
def decodeURIComponentChars (s : Str) : Option Str :=
  (tokenize s).bind decodeTokens

/-- The characters `encodeURIComponent` leaves unescaped:
`A-Z a-z 0-9 - _ . ! ~ * ' ( )`. -/
def isUnreserved (c : Char) : Prop :=
  let n := c.toNat
  (65 ≤ n ∧ n ≤ 90) ∨ (97 ≤ n ∧ n ≤ 122) ∨ (48 ≤ n ∧ n ≤ 57) ∨
    n ∈ ([45, 95, 46, 33, 126, 42, 39, 40, 41] : List Nat)

instance (c : Char) : Decidable (isUnreserved c) := by
  unfold isUnreserved; infer_instance

/-- UTF-8 byte sequence of a Unicode scalar value. -/
def utf8Bytes (n : Nat) : List Nat :=
  if n ≤ 127 then [n]
  else if n ≤ 2047 then [192 + n / 64, 128 + n % 64]
  else if n ≤ 65535 then [224 + n / 4096, 128 + (n / 64) % 64, 128 + n % 64]
  else [240 + n / 262144, 128 + (n / 4096) % 64, 128 + (n / 64) % 64, 128 + n % 64]

/-- JS `encodeURIComponent` on a single character. -/
def encodeChar (c : Char) : Str :=
  if isUnreserved c then [c]
  else ((utf8Bytes c.toNat).map
    (fun b => ['%', hexDigitUpper (b / 16), hexDigitUpper (b % 16)])).flatten

/-- JS `encodeURIComponent`, modelled on `List Char`. -/
def encodeURIComponentChars (s : Str) : Str :=
  (s.map encodeChar).flatten

/-- `DeepLinkHandler.buildQueryString`: percent-encode each key and value
and join the pairs with `&` (pairs in `Object.entries` order). -/
def buildQueryString (params : List (Str × Str)) : Str :=
  joinSep '&'
    (params.map (fun kv => encodeURIComponentChars kv.1 ++ '=' :: encodeURIComponentChars kv.2))

/-- One `pair` iteration of the query loop in
`DeepLinkHandler.parseUrlString`: split on the first `=` (a pair with no
`=` gets the empty-string value), percent-decode key and value, then
`Map.set`. A decode failure aborts the whole parse. -/
def parsePair (m : List (Str × Str)) (pair : Str) : Option (List (Str × Str)) :=
  match idxOf '=' pair with
  | none => (decodeURIComponentChars pair).map (fun k => mapSet m k [])
  | some eqIndex =>
    match decodeURIComponentChars (pair.take eqIndex),
          decodeURIComponentChars (pair.drop (eqIndex + 1)) with
    | some k, some v => some (mapSet m k v)
    | _, _ => none

/-- The decoded key/value of a single raw query pair (the same per-pair
rule as `parsePair`, without the map update). -/
def decodePair (pair : Str) : Option (Str × Str) :=
  match idxOf '=' pair with
  | none => (decodeURIComponentChars pair).map (fun k => (k, []))
  | some eqIndex =>
    match decodeURIComponentChars (pair.take eqIndex),
          decodeURIComponentChars (pair.drop (eqIndex + 1)) with
    | some k, some v => some (k, v)
    | _, _ => none

/-- The query loop of `DeepLinkHandler.parseUrlString`: split on `&` and
fold `parsePair` over the pairs, starting from an empty map. -/
def parseQuery (queryString : Str) : Option (List (Str × Str)) :=
  (jsSplit '&' queryString).foldlM parsePair []

/-- `DeepLinkHandler.parseUrlString`: manual URL parsing (the Hermes
engine lacks `URL` / `URLSearchParams`). Returns the pathname and the
search-params map, or `none` on failure (no `://`, or a decode error in
the query, which JS surfaces as a caught exception). -/
def parseUrlString (url : Str) : Option (Str × List (Str × Str)) :=
  match findSub [':', '/', '/'] url with
  | none => none
  | some protocolEnd =>
    let afterProtocol := url.drop (protocolEnd + 3)
    let pathAndQuery := match idxOf '/' afterProtocol with
      | none => ['/']
      | some pathStart => afterProtocol.drop pathStart
    let withoutHash := match idxOf '#' pathAndQuery with
      | none => pathAndQuery
      | some hashIndex => pathAndQuery.take hashIndex
    let pathname := match idxOf '?' withoutHash with
      | none => withoutHash
      | some queryStart => withoutHash.take queryStart
    let queryString := match idxOf '?' withoutHash with
      | none => []
      | some queryStart => withoutHash.drop (queryStart + 1)
    if queryString = [] then some (pathname, [])
    else (parseQuery queryString).map (fun m => (pathname, m))

/-- The optional structured UTM fields of `DeepLinkData` (types.ts). -/
structure UtmParameters where
  source : Option Str := none
  medium : Option Str := none
  campaign : Option Str := none
  term : Option Str := none
  content : Option Str := none
  deriving DecidableEq

/-- `DeepLinkData` (types.ts): the canonical attribution record delivered
to host callbacks. `none` models an absent (`undefined`) field. -/
structure DeepLinkData where
  shortCode : Str
  iosUrl : Option Str := none
  androidUrl : Option Str := none
  webUrl : Option Str := none
  utmParameters : Option UtmParameters := none
  customParameters : Option (List (Str × Str)) := none
  clickedAt : Option Str := none
  linkId : Option Str := none
  deriving DecidableEq

/-- `DeviceFingerprint` (types.ts), as returned by
`FingerprintCollector.collect`. -/
structure DeviceFingerprint where
  userAgent : Str
  timezone : Str
  language : Str
  screenResolution : Str
  platform : Str
  deviceModel : Option Str := none
  osVersion : Option Str := none
  appVersion : Option Str := none
  deriving DecidableEq

/-- The injected resolve function (`ResolveFunction` in types.ts):
`Except.error` models a rejected promise, `Except.ok none` a `null`
result. -/
abbrev ResolveFn := Str → Except Unit (Option DeepLinkData)

/-- `searchParams.get(k) || undefined`: a missing key or an empty-string
value (falsy in JS) both yield `undefined`. -/
def jsGetTruthy (m : List (Str × Str)) (k : Str) : Option Str :=
  match mapGet m k with
  | some v => if v = [] then none else some v
  | none => none

/-- `DeepLinkHandler.parseURL`: local link extraction without a server
call. `baseUrl = none` models a `null` base URL; a configured non-empty
base URL that is not a prefix of the URL short-circuits to `null`. -/
def parseURL (baseUrl : Option Str) (url : Str) : Option DeepLinkData :=
  if (match baseUrl with
      | some b => !b.isEmpty && !(b.isPrefixOf url)
      | none => false) then none
  else
    match parseUrlString url with
    | none => none
    | some (pathname, searchParams) =>
      let pathSegments := (jsSplit '/' pathname).filter (fun s => !s.isEmpty)
      match pathSegments.getLast? with
      | none => none
      | some shortCode =>
        if shortCode = [] then none
        else
          let utmParameters : UtmParameters :=
            { source := jsGetTruthy searchParams ("utm_source").toList
              medium := jsGetTruthy searchParams ("utm_medium").toList
              campaign := jsGetTruthy searchParams ("utm_campaign").toList
              term := jsGetTruthy searchParams ("utm_term").toList
              content := jsGetTruthy searchParams ("utm_content").toList }
          let customParameters :=
            searchParams.filter (fun kv => !(("utm_").toList.isPrefixOf kv.1))
          some { shortCode := shortCode
                 utmParameters := some utmParameters
                 customParameters :=
                   if customParameters.length > 0 then some customParameters else none }

/-- The fingerprint query parameters built inside
`DeepLinkHandler.resolveURL` (insertion order of the object literal).
JS array destructuring of `screenResolution.split('x')` yields
`undefined` for a missing second element, which `encodeURIComponent`
later coerces to the string `"undefined"`. -/
def fpQueryParams (fingerprint : DeviceFingerprint) : List (Str × Str) :=
  let parts := jsSplit 'x' fingerprint.screenResolution
  let sw := parts.headD []
  let sh := match parts with
    | _ :: s :: _ => s
    | _ => ("undefined").toList
  [(("fp_tz").toList, fingerprint.timezone),
   (("fp_lang").toList, fingerprint.language),
   (("fp_sw").toList, sw),
   (("fp_sh").toList, sh),
   (("fp_platform").toList, fingerprint.platform)] ++
  (match fingerprint.osVersion with
   | some v => [(("fp_pv").toList, v)]
   | none => [])

/-- The fixed endpoint root of the resolve API. -/
def apiResolveRoot : Str := ("/api/sdk/v1/resolve/").toList

/-- `DeepLinkHandler.resolveURL`. `fpOutcome = none` models
`FingerprintCollector.collect` throwing (the catch proceeds without
fingerprint parameters). Returns the outcome of the injected resolve
function (`Except.error` if it threw) together with the list of issued
request paths, so the claims can observe whether and where a request
was made. -/
def resolveURL (resolveFn : Option ResolveFn) (fpOutcome : Option DeviceFingerprint)
    (url : Str) : Except Unit (Option DeepLinkData) × List Str :=
  match resolveFn with
  | none => (Except.ok none, [])
  | some fn =>
    match parseUrlString url with
    | none => (Except.ok none, [])
    | some (pathname, _) =>
      match (jsSplit '/' pathname).filter (fun s => !s.isEmpty) with
      | [] => (Except.ok none, [])
      | seg0 :: restSegs =>
        let resolvePath := match restSegs with
          | seg1 :: _ => apiResolveRoot ++ seg0 ++ '/' :: seg1
          | [] => apiResolveRoot ++ seg0
        let finalPath := match fpOutcome with
          | some fingerprint =>
            resolvePath ++ '?' :: buildQueryString (fpQueryParams fingerprint)
          | none => resolvePath
        (fn finalPath, [finalPath])

/-- `DeepLinkHandler.handleDeepLink`: the per-URL-event reconciliation.
Returns the list of host-callback invocations `(url, data)` and the list
of issued request paths. `hasCallback = false` models a `null` callback
(before `initialize` / after `cleanup`). -/
def handleDeepLink (hasCallback : Bool) (baseUrl : Option Str)
    (resolveFn : Option ResolveFn) (fpOutcome : Option DeviceFingerprint)
    (url : Str) : List (Str × Option DeepLinkData) × List Str :=
  if !hasCallback || url.isEmpty then ([], [])
  else
    let localData := parseURL baseUrl url
    let isLinkFortyUrl := localData.isSome && resolveFn.isSome &&
      (match baseUrl with
       | some b => !b.isEmpty && b.isPrefixOf url
       | none => false)
    if isLinkFortyUrl then
      match resolveURL resolveFn fpOutcome url with
      | (Except.ok (some resolvedData), reqs) => ([(url, some resolvedData)], reqs)
      | (_, reqs) => ([(url, localData)], reqs)
    else ([(url, localData)], [])

/-- The link-data payload of an install-report response
(`response.deepLinkData`), which may carry its custom parameters under
either field name (`deepLinkParameters` or `customParameters`). -/
structure RawDeepLinkData where
  shortCode : Str
  iosUrl : Option Str := none
  androidUrl : Option Str := none
  webUrl : Option Str := none
  utmParameters : Option UtmParameters := none
  customParameters : Option (List (Str × Str)) := none
  deepLinkParameters : Option (List (Str × Str)) := none
  clickedAt : Option Str := none
  linkId : Option Str := none
  deriving DecidableEq

/-- `InstallAttributionResponse` (types.ts); only the fields the
reconciliation logic reads. `deepLinkData = none` models a missing
payload. -/
structure InstallAttributionResponse where
  installId : Option Str := none
  attributed : Bool
  confidenceScore : Nat := 0
  matchedFactors : List Str := []
  deepLinkData : Option RawDeepLinkData := none
  deriving DecidableEq

/-- The deferred-path normalization in `LinkFortySDK.reportInstall`:
spread the payload and set `customParameters` to
`deepLinkParameters || customParameters` (JS `||`: the first operand
wins whenever it is present, since an object is always truthy). -/
def normalizeDeferred (raw : RawDeepLinkData) : DeepLinkData :=
  { shortCode := raw.shortCode
    iosUrl := raw.iosUrl
    androidUrl := raw.androidUrl
    webUrl := raw.webUrl
    utmParameters := raw.utmParameters
    customParameters :=
      match raw.deepLinkParameters with
      | some p => some p
      | none => raw.customParameters
    clickedAt := raw.clickedAt
    linkId := raw.linkId }

/-- `LinkFortySDK.reportInstall`, reduced to its deferred-callback
deliveries. `resp` is the outcome of the install request
(`Except.error` models a network/HTTP failure); the result is the list
of values passed to the deferred deep-link callback. -/
def reportInstall (hasCallback : Bool)
    (resp : Except Unit InstallAttributionResponse) : List (Option DeepLinkData) :=
  match resp with
  | Except.error _ => if hasCallback then [none] else []
  | Except.ok r =>
    if r.attributed then
      match r.deepLinkData with
      | some raw => if hasCallback then [some (normalizeDeferred raw)] else []
      | none => if hasCallback then [none] else []
    else if hasCallback then [none] else []

/-- The `pathAndQuery` intermediate of `parseUrlString`: everything from
the first `/` after `://` (or the literal `/` when there is none). -/
def pathAndQueryOf (url : Str) : Option Str :=
  match findSub [':', '/', '/'] url with
  | none => none
  | some protocolEnd =>
    let afterProtocol := url.drop (protocolEnd + 3)
    some (match idxOf '/' afterProtocol with
      | none => ['/']
      | some pathStart => afterProtocol.drop pathStart)

/-- The raw query substring of a `pathAndQuery`: between the first `?`
(after the `#` cut) and the end. -/
def queryStringOf (p : Str) : Str :=
  let withoutHash := match idxOf '#' p with
    | none => p
    | some hashIndex => p.take hashIndex
  match idxOf '?' withoutHash with
  | none => []
  | some queryStart => withoutHash.drop (queryStart + 1)

/-- The two truncation steps `parseUrlString` applies to `pathAndQuery`:
cut at the first `#`, then at the first `?`. -/
def hashThenQueryCut (p : Str) : Str :=
  let withoutHash := match idxOf '#' p with
    | none => p
    | some hashIndex => p.take hashIndex
  match idxOf '?' withoutHash with
  | none => withoutHash
  | some queryStart => withoutHash.take queryStart

/-- Index of the earliest `#` or `?` in a string (its length if neither
occurs). -/
def cutAt (p : Str) : Nat :=
  match idxOf '#' p, idxOf '?' p with
  | none, none => p.length
  | some i, none => i
  | none, some j => j
  | some i, some j => min i j

/-- The amended path rule: the substring from the first `/` after `://`
(located in the full URL, before the fragment is removed), truncated at
the earliest `#` or `?`; the literal `/` when no `/` follows `://`. -/
def amendedPath (url : Str) : Option Str :=
  match findSub [':', '/', '/'] url with
  | none => none
  | some protocolEnd =>
    let afterProtocol := url.drop (protocolEnd + 3)
    match idxOf '/' afterProtocol with
    | none => some ['/']
    | some pathStart =>
      let tail := afterProtocol.drop pathStart
      some (tail.take (cutAt tail))

/-- Modelled from the claim's words (C4): the path is taken from the part
of the URL strictly before any `#` fragment; within that part, it is the
substring from the first `/` after the authority segment up to but
excluding any `?` (no `#` can remain); if no such `/` exists, it is `/`. -/
def specFragmentFirstPath (url : Str) : Option Str :=
  let beforeHash := match idxOf '#' url with
    | none => url
    | some hashIndex => url.take hashIndex
  match findSub [':', '/', '/'] beforeHash with
  | none => none
  | some protocolEnd =>
    let afterProtocol := beforeHash.drop (protocolEnd + 3)
    match idxOf '/' afterProtocol with
    | none => some ['/']
    | some pathStart =>
      let tail := afterProtocol.drop pathStart
      some (match idxOf '?' tail with
        | none => tail
        | some queryStart => tail.take queryStart)

/-- The value of the last raw query pair whose decoded key is `k` (the
"last occurrence wins" reading of the claim C5). -/
def lastDecoded (queryString : Str) (k : Str) : Option Str :=
  (jsSplit '&' queryString).reverse.findSome? (fun pair =>
    match decodePair pair with
    | some kv => if kv.1 = k then some kv.2 else none
    | none => none)

/-- Lookup through an optional custom-parameters mapping (absent behaves
as the empty mapping). -/
def lookupCustom (o : Option (List (Str × Str))) (k : Str) : Option Str :=
  match o with
  | some cm => mapGet cm k
  | none => none

/-- Claim C1 as stated: whenever local extraction is non-null, a resolver
is configured, and the URL starts with the configured base URL, a
non-null remote result is delivered and a null/failed remote falls back
to the local result. (Refuted: a configured empty base URL satisfies
"the URL starts with the configured baseUrl" yet the handler skips
remote resolution because the empty string is falsy.) -/
def ClaimC1Statement : Prop :=
  ∀ (b : Str) (rf : ResolveFn) (fpOutcome : Option DeviceFingerprint)
    (url : Str) (localData : DeepLinkData),
    parseURL (some b) url = some localData →
    b.isPrefixOf url = true →
    (∀ d, (resolveURL (some rf) fpOutcome url).1 = Except.ok (some d) →
      (handleDeepLink true (some b) (some rf) fpOutcome url).1 = [(url, some d)]) ∧
    (((resolveURL (some rf) fpOutcome url).1 = Except.ok none ∨
      (resolveURL (some rf) fpOutcome url).1 = Except.error ()) →
      (handleDeepLink true (some b) (some rf) fpOutcome url).1 = [(url, some localData)])

/-- Claim C3 as stated: with a registered callback, every incoming URL
event yields exactly one callback invocation. (Refuted: an event whose
`url` is the empty string is dropped with zero invocations.) -/
def ClaimC3Statement : Prop :=
  ∀ (baseUrl : Option Str) (resolveFn : Option ResolveFn)
    (fpOutcome : Option DeviceFingerprint) (url : Str),
    ((handleDeepLink true baseUrl resolveFn fpOutcome url).1).length = 1

/-- Claim C4 as stated: for every URL containing `://` whose parse
succeeds, the parser's path equals the fragment-stripped-first reading
`specFragmentFirstPath`. (Refuted: a `#` before the first `/` is not
stripped before the path start is located.) -/
def ClaimC4Statement : Prop :=
  ∀ (url pathname : Str) (m : List (Str × Str)),
    (findSub [':', '/', '/'] url).isSome →
    parseUrlString url = some (pathname, m) →
    specFragmentFirstPath url = some pathname

/-- C2: for every install-report response with `attributed = true` and a
link-data payload, the deferred delivery uses the normalized record whose
`customParameters` is the payload's `deepLinkParameters` field if
present, else its `customParameters` field if present, else absent. -/
theorem c2_deferred_normalization (r : InstallAttributionResponse) (raw : RawDeepLinkData)
    (hattr : r.attributed = true) (hdld : r.deepLinkData = some raw) :
    reportInstall true (Except.ok r) = [some (normalizeDeferred raw)] ∧
    (∀ p, raw.deepLinkParameters = some p →
      (normalizeDeferred raw).customParameters = some p) ∧
    (raw.deepLinkParameters = none →
      ∀ q, raw.customParameters = some q →
        (normalizeDeferred raw).customParameters = some q) ∧
    (raw.deepLinkParameters = none → raw.customParameters = none →
      (normalizeDeferred raw).customParameters = none) := by
  refine ⟨by simp [reportInstall, hattr, hdld], ?_, ?_, ?_⟩
  · intro p hp; simp [normalizeDeferred, hp]
  · intro hnone q hq; simp [normalizeDeferred, hnone, hq]
  · intro h1 h2; simp [normalizeDeferred, h1, h2]

/-- Witness for C2 at a concrete attributed response carrying
`deepLinkParameters`. -/
theorem c2_deferred_normalization_witness :
    reportInstall true (Except.ok
      { attributed := true
        deepLinkData := some { shortCode := ("x").toList
                               deepLinkParameters := some [(("route").toList, ("A").toList)] } }) =
      [some (normalizeDeferred
        { shortCode := ("x").toList
          deepLinkParameters := some [(("route").toList, ("A").toList)] })] ∧
    (normalizeDeferred
      { shortCode := ("x").toList
        deepLinkParameters := some [(("route").toList, ("A").toList)] }).customParameters =
      some [(("route").toList, ("A").toList)] := by
  have h := c2_deferred_normalization
    { attributed := true
      deepLinkData := some { shortCode := ("x").toList
                             deepLinkParameters := some [(("route").toList, ("A").toList)] } }
    { shortCode := ("x").toList
      deepLinkParameters := some [(("route").toList, ("A").toList)] } rfl rfl
  exact ⟨h.1, h.2.1 _ rfl⟩

/-- C3, counterexample: with a registered callback, the event whose URL
is the empty string is dropped with zero callback invocations, so the
callback is not invoked exactly once for every event. -/
theorem c3_claim_false : ¬ClaimC3Statement := by
  intro h
  exact absurd (h none none none []) (by decide)

/-- C3, amended: with a registered callback, an event with a non-empty
URL yields exactly one callback invocation (never zero, never two), and
an event with an empty URL yields zero. -/
theorem c3_exactly_once (baseUrl : Option Str) (resolveFn : Option ResolveFn)
    (fpOutcome : Option DeviceFingerprint) (url : Str) :
    ((handleDeepLink true baseUrl resolveFn fpOutcome url).1).length =
      if url = [] then 0 else 1 := by
  unfold handleDeepLink
  cases url with
  | nil => simp
  | cons c rest =>
    simp only [List.isEmpty_cons, Bool.not_true, Bool.false_or, Bool.false_eq_true,
      if_false, reduceCtorEq, if_neg]
    split
    · split
      · simp
      · simp
    · simp

/-- C1, counterexample: with the configured base URL equal to the empty
string (which every URL starts with), local extraction succeeds and a
resolver returning a non-null record is configured, yet the handler
delivers the local result, because the empty base URL is falsy in the
`localData && resolveFn && baseUrl && url.startsWith(baseUrl)` guard. -/
theorem c1_claim_false : ¬ClaimC1Statement := by
  intro h
  have h2 := h [] (fun _ => Except.ok (some { shortCode := ("zz").toList })) none
    (("s://h/a").toList)
    { shortCode := ("a").toList, utmParameters := some {} }
    (by decide) (by decide)
  have h3 := h2.1 { shortCode := ("zz").toList } rfl
  exact absurd h3 (by decide)

/-- C1, amended: whenever local extraction yields a non-null record, a
resolver is configured, and the configured base URL is non-empty and a
prefix of the URL, a non-null remote result is delivered exactly (local
discarded), and a null or failed remote resolution delivers the local
result unchanged. -/
theorem c1_remote_wins (b : Str) (rf : ResolveFn) (fpOutcome : Option DeviceFingerprint)
    (url : Str) (localData : DeepLinkData)
    (hb : b ≠ [])
    (hlocal : parseURL (some b) url = some localData)
    (hpre : b.isPrefixOf url = true) :
    (∀ d, (resolveURL (some rf) fpOutcome url).1 = Except.ok (some d) →
      (handleDeepLink true (some b) (some rf) fpOutcome url).1 = [(url, some d)]) ∧
    (((resolveURL (some rf) fpOutcome url).1 = Except.ok none ∨
      (resolveURL (some rf) fpOutcome url).1 = Except.error ()) →
      (handleDeepLink true (some b) (some rf) fpOutcome url).1 = [(url, some localData)]) := by
  have hbe : b.isEmpty = false := by
    cases b with
    | nil => exact absurd rfl hb
    | cons x xs => rfl
  have hurl : url.isEmpty = false := by
    cases b with
    | nil => exact absurd rfl hb
    | cons x xs =>
      cases url with
      | nil => simp [List.isPrefixOf] at hpre
      | cons y ys => rfl
  constructor
  · intro d hd
    have hres : resolveURL (some rf) fpOutcome url =
        (Except.ok (some d), (resolveURL (some rf) fpOutcome url).2) := by
      rw [← hd]
    unfold handleDeepLink
    rw [hres]
    simp [hurl, hlocal, hbe, hpre]
  · intro hd
    rcases hd with hd | hd
    · have hres : resolveURL (some rf) fpOutcome url =
          (Except.ok none, (resolveURL (some rf) fpOutcome url).2) := by
        rw [← hd]
      unfold handleDeepLink
      rw [hres]
      simp [hurl, hlocal, hbe, hpre]
    · have hres : resolveURL (some rf) fpOutcome url =
          (Except.error (), (resolveURL (some rf) fpOutcome url).2) := by
        rw [← hd]
      unfold handleDeepLink
      rw [hres]
      simp [hurl, hlocal, hbe, hpre]

/-- Witness for C1 (amended) at a concrete URL, base URL, and resolver:
the remote record wins when the resolver returns it, and the local
record is delivered when the resolver returns null. -/
theorem c1_remote_wins_witness :
    (handleDeepLink true (some (("https://go.test").toList))
      (some (fun _ => Except.ok (some { shortCode := ("zz").toList })))
      none (("https://go.test/abc").toList)).1 =
      [((("https://go.test/abc").toList), some { shortCode := ("zz").toList })] ∧
    (handleDeepLink true (some (("https://go.test").toList))
      (some (fun _ => Except.ok none))
      none (("https://go.test/abc").toList)).1 =
      [((("https://go.test/abc").toList),
        some { shortCode := ("abc").toList, utmParameters := some {} })] := by
  constructor
  · exact (c1_remote_wins (("https://go.test").toList)
      (fun _ => Except.ok (some { shortCode := ("zz").toList })) none
      (("https://go.test/abc").toList)
      { shortCode := ("abc").toList, utmParameters := some {} }
      (by decide) (by decide) (by decide)).1
      { shortCode := ("zz").toList } rfl
  · exact (c1_remote_wins (("https://go.test").toList)
      (fun _ => Except.ok none) none
      (("https://go.test/abc").toList)
      { shortCode := ("abc").toList, utmParameters := some {} }
      (by decide) (by decide) (by decide)).2 (Or.inl rfl)

/-- `idxOf` returning `none` means the character does not occur. -/
theorem not_mem_of_idxOf_eq_none {c : Char} {l : Str} (h : idxOf c l = none) : c ∉ l := by
  induction l with
  | nil => simp
  | cons x rest ih =>
    simp only [idxOf] at h
    by_cases hx : x = c
    · rw [if_pos hx] at h
      exact absurd h (by simp)
    · rw [if_neg hx] at h
      rcases h2 : idxOf c rest with _ | i
      · have hrest := ih h2
        simp only [List.mem_cons]
        rintro (hc | hc)
        · exact hx hc.symm
        · exact hrest hc
      · rw [h2] at h
        exact absurd h (by simp)

/-- No occurrence of the character strictly before its first index. -/
theorem not_mem_take_idxOf {c : Char} {l : Str} {i : Nat} (h : idxOf c l = some i) :
    c ∉ l.take i := by
  induction l generalizing i with
  | nil => simp [idxOf] at h
  | cons x rest ih =>
    simp only [idxOf] at h
    by_cases hx : x = c
    · rw [if_pos hx] at h
      injection h with h0
      subst h0
      simp
    · rw [if_neg hx] at h
      rcases h2 : idxOf c rest with _ | j
      · rw [h2] at h
        exact absurd h (by simp)
      · rw [h2] at h
        replace h : some (j + 1) = some i := h
        injection h with h0
        subst h0
        simp only [List.take_succ_cons, List.mem_cons]
        rintro (hc | hc)
        · exact hx hc.symm
        · exact ih h2 hc

/-- `parseUrlString` decomposed through its three stages. -/
theorem parseUrlString_eq (url : Str) :
    parseUrlString url =
      match pathAndQueryOf url with
      | none => none
      | some pq =>
        if queryStringOf pq = [] then some (hashThenQueryCut pq, [])
        else (parseQuery (queryStringOf pq)).map (fun m => (hashThenQueryCut pq, m)) := by
  unfold parseUrlString pathAndQueryOf hashThenQueryCut queryStringOf
  cases findSub [':', '/', '/'] url <;> rfl

/-- On parse success the pathname is the two-stage cut of the
path-and-query substring. -/
theorem parseUrlString_path_shape {url pn : Str} {m : List (Str × Str)}
    (h : parseUrlString url = some (pn, m)) :
    ∃ pq, pathAndQueryOf url = some pq ∧ pn = hashThenQueryCut pq := by
  rw [parseUrlString_eq] at h
  split at h
  · exact absurd h (by simp)
  · rename_i pq hpq
    refine ⟨pq, hpq, ?_⟩
    split at h
    · exact (congrArg Prod.fst (Option.some.inj h)).symm
    · cases hp2 : parseQuery (queryStringOf pq) with
      | none => rw [hp2] at h; exact absurd h (by simp)
      | some m2 =>
        rw [hp2] at h
        replace h : some (hashThenQueryCut pq, m2) = some (pn, m) := h
        exact (congrArg Prod.fst (Option.some.inj h)).symm

/-- The pathname produced by `hashThenQueryCut` never contains `?`. -/
theorem qmark_not_mem_hashThenQueryCut (p : Str) : '?' ∉ hashThenQueryCut p := by
  have key : ∀ w : Str, '?' ∉ (match idxOf '?' w with
      | none => w
      | some queryStart => w.take queryStart) := by
    intro w
    cases h2 : idxOf '?' w with
    | none => exact not_mem_of_idxOf_eq_none h2
    | some j => exact not_mem_take_idxOf h2
  unfold hashThenQueryCut
  exact key _

/-- `jsSplit` always produces at least one part. -/
theorem jsSplit_ne_nil (sep : Char) (l : Str) : jsSplit sep l ≠ [] := by
  cases l with
  | nil => simp [jsSplit]
  | cons c rest =>
    simp only [jsSplit]
    cases jsSplit sep rest with
    | nil => simp
    | cons h t =>
      by_cases hc : c = sep <;> simp [hc]

/-- Joining the parts of `jsSplit` restores the original string. -/
theorem joinSep_jsSplit (sep : Char) (l : Str) : joinSep sep (jsSplit sep l) = l := by
  induction l with
  | nil => rfl
  | cons c rest ih =>
    cases hs : jsSplit sep rest with
    | nil => exact absurd hs (jsSplit_ne_nil sep rest)
    | cons h t =>
      rw [hs] at ih
      have hstep : jsSplit sep (c :: rest) =
          if c = sep then [] :: h :: t else (c :: h) :: t := by
        simp only [jsSplit, hs]
      rw [hstep]
      by_cases hc : c = sep
      · rw [if_pos hc]
        subst hc
        cases t with
        | nil =>
          simp only [joinSep] at ih ⊢
          simpa using ih
        | cons t0 t1 =>
          simp only [joinSep] at ih ⊢
          simpa using ih
      · rw [if_neg hc]
        cases t with
        | nil =>
          simp only [joinSep] at ih ⊢
          rw [ih]
        | cons t0 t1 =>
          simp only [joinSep] at ih ⊢
          rw [List.cons_append, ih]

/-- A character of a member string is a character of the join. -/
theorem mem_joinSep_of_mem {sep c : Char} {s : Str} :
    ∀ {L : List Str}, s ∈ L → c ∈ s → c ∈ joinSep sep L := by
  intro L
  induction L with
  | nil => intro hs _; exact absurd hs (by simp)
  | cons s0 t ih =>
    intro hs hc
    rcases List.mem_cons.mp hs with h | h
    · subst h
      cases t with
      | nil => exact hc
      | cons t0 t1 =>
        simp only [joinSep]
        exact List.mem_append.mpr (Or.inl hc)
    · cases t with
      | nil => exact absurd h (by simp)
      | cons t0 t1 =>
        simp only [joinSep]
        exact List.mem_append.mpr (Or.inr (List.mem_cons.mpr (Or.inr (ih h hc))))

/-- A character of any part of `jsSplit sep l` is a character of `l`. -/
theorem mem_of_mem_jsSplit {sep : Char} {l s : Str} {c : Char}
    (hs : s ∈ jsSplit sep l) (hc : c ∈ s) : c ∈ l := by
  have hj := @mem_joinSep_of_mem sep c s (jsSplit sep l) hs hc
  rwa [joinSep_jsSplit] at hj

/-- C6: endpoint-path selection of the remote resolver. With ≥2 non-empty
path segments the issued request targets
`/api/sdk/v1/resolve/{segment0}/{segment1}`; with exactly one segment it
targets `/api/sdk/v1/resolve/{segment0}` (in both cases followed only by
an optional `?`-query suffix); with a failed parse or zero segments it
returns null without issuing any request. -/
theorem c6_endpoint_selection (fn : ResolveFn) (fpOutcome : Option DeviceFingerprint)
    (url : Str) :
    (parseUrlString url = none → resolveURL (some fn) fpOutcome url = (Except.ok none, [])) ∧
    (∀ pn m, parseUrlString url = some (pn, m) →
      ((jsSplit '/' pn).filter (fun s => !s.isEmpty) = [] →
        resolveURL (some fn) fpOutcome url = (Except.ok none, [])) ∧
      (∀ s0, (jsSplit '/' pn).filter (fun s => !s.isEmpty) = [s0] →
        ∃ suffix, (resolveURL (some fn) fpOutcome url).2 = [apiResolveRoot ++ s0 ++ suffix] ∧
          (suffix = [] ∨ ∃ t, suffix = '?' :: t)) ∧
      (∀ s0 s1 r2, (jsSplit '/' pn).filter (fun s => !s.isEmpty) = s0 :: s1 :: r2 →
        ∃ suffix, (resolveURL (some fn) fpOutcome url).2 =
            [apiResolveRoot ++ s0 ++ '/' :: s1 ++ suffix] ∧
          (suffix = [] ∨ ∃ t, suffix = '?' :: t))) := by
  refine ⟨?_, ?_⟩
  · intro hp
    simp [resolveURL, hp]
  · intro pn m hp
    refine ⟨?_, ?_, ?_⟩
    · intro hseg
      simp [resolveURL, hp, hseg]
    · intro s0 hseg
      cases fpOutcome with
      | none =>
        refine ⟨[], ?_, Or.inl rfl⟩
        simp [resolveURL, hp, hseg]
      | some f =>
        refine ⟨'?' :: buildQueryString (fpQueryParams f), ?_, Or.inr ⟨_, rfl⟩⟩
        simp [resolveURL, hp, hseg]
    · intro s0 s1 r2 hseg
      cases fpOutcome with
      | none =>
        refine ⟨[], ?_, Or.inl rfl⟩
        simp [resolveURL, hp, hseg, List.append_assoc]
      | some f =>
        refine ⟨'?' :: buildQueryString (fpQueryParams f), ?_, Or.inr ⟨_, rfl⟩⟩
        simp [resolveURL, hp, hseg, List.append_assoc]

/-- Witness for C6 at a concrete two-segment URL. -/
theorem c6_endpoint_selection_witness :
    ∃ suffix,
      (resolveURL (some (fun _ => Except.ok none)) none
        (("https://go.test/promo/abc").toList)).2 =
        [apiResolveRoot ++ ("promo").toList ++ '/' :: ("abc").toList ++ suffix] ∧
      (suffix = [] ∨ ∃ t, suffix = '?' :: t) :=
  (((c6_endpoint_selection (fun _ => Except.ok none) none
    (("https://go.test/promo/abc").toList)).2 (("/promo/abc").toList) []
    (by decide)).2.2) (("promo").toList) (("abc").toList) [] (by decide)

/-- C8: when fingerprint collection fails, the resolver still invokes the
injected request function, and the issued path carries no query string at
all (no `?`, hence no `fp_*` parameters). -/
theorem c8_fingerprint_failure (fn : ResolveFn) (url pn : Str) (m : List (Str × Str))
    (hp : parseUrlString url = some (pn, m))
    (hseg : (jsSplit '/' pn).filter (fun s => !s.isEmpty) ≠ []) :
    ∃ p, resolveURL (some fn) none url = (fn p, [p]) ∧ '?' ∉ p := by
  obtain ⟨pq, hpq, hpn⟩ := parseUrlString_path_shape hp
  have hq : '?' ∉ pn := by rw [hpn]; exact qmark_not_mem_hashThenQueryCut pq
  cases hfil : (jsSplit '/' pn).filter (fun s => !s.isEmpty) with
  | nil => exact absurd hfil hseg
  | cons s0 rest =>
    have hs0 : s0 ∈ jsSplit '/' pn := by
      have hmem2 : s0 ∈ (jsSplit '/' pn).filter (fun s => !s.isEmpty) := by
        rw [hfil]
        exact List.mem_cons_self s0 rest
      exact List.mem_of_mem_filter hmem2
    have hs0q : '?' ∉ s0 := fun hin => hq (mem_of_mem_jsSplit hs0 hin)
    have hrootq : '?' ∉ apiResolveRoot := by decide
    cases rest with
    | nil =>
      refine ⟨apiResolveRoot ++ s0, ?_, ?_⟩
      · simp [resolveURL, hp, hfil]
      · intro hin
        rcases List.mem_append.mp hin with h | h
        · exact hrootq h
        · exact hs0q h
    | cons s1 rest2 =>
      have hs1 : s1 ∈ jsSplit '/' pn := by
        have hmem2 : s1 ∈ (jsSplit '/' pn).filter (fun s => !s.isEmpty) := by
          rw [hfil]
          exact List.mem_cons.mpr (Or.inr (List.mem_cons_self s1 rest2))
        exact List.mem_of_mem_filter hmem2
      have hs1q : '?' ∉ s1 := fun hin => hq (mem_of_mem_jsSplit hs1 hin)
      refine ⟨apiResolveRoot ++ s0 ++ '/' :: s1, ?_, ?_⟩
      · simp [resolveURL, hp, hfil]
      · intro hin
        rcases List.mem_append.mp hin with h | h
        · rcases List.mem_append.mp h with h2 | h2
          · exact hrootq h2
          · exact hs0q h2
        · rcases List.mem_cons.mp h with h2 | h2
          · exact absurd h2 (by decide)
          · exact hs1q h2

/-- Witness for C8 at a concrete URL with a failing fingerprint
provider. -/
theorem c8_fingerprint_failure_witness :
    ∃ p, resolveURL (some (fun _ => Except.ok none)) none (("https://go.test/abc").toList) =
        ((fun _ => Except.ok none : ResolveFn) p, [p]) ∧ '?' ∉ p :=
  c8_fingerprint_failure (fun _ => Except.ok none) (("https://go.test/abc").toList)
    (("/abc").toList) [] (by decide) (by decide)

/-- `mapGet` on a cons cell. -/
theorem mapGet_cons (k0 v0 : Str) (rest : List (Str × Str)) (k : Str) :
    mapGet ((k0, v0) :: rest) k = if k0 = k then some v0 else mapGet rest k := by
  by_cases hk : k0 = k
  · rw [if_pos hk]
    unfold mapGet
    rw [List.find?_cons_of_pos _ (by simpa using hk)]
    rfl
  · rw [if_neg hk]
    unfold mapGet
    rw [List.find?_cons_of_neg _ (by simpa using hk)]

/-- `mapGet` after `mapSet`: the written key reads back the written value
and all other keys are unchanged. -/
theorem mapGet_mapSet (m : List (Str × Str)) (k v k2 : Str) :
    mapGet (mapSet m k v) k2 = if k = k2 then some v else mapGet m k2 := by
  induction m with
  | nil => simp only [mapSet]; exact mapGet_cons k v [] k2
  | cons kv rest ih =>
    obtain ⟨k0, v0⟩ := kv
    simp only [mapSet]
    by_cases h0 : k0 = k
    · rw [if_pos h0]
      subst h0
      rw [mapGet_cons, mapGet_cons]
      by_cases h2 : k0 = k2 <;> simp [h2]
    · rw [if_neg h0]
      rw [mapGet_cons, mapGet_cons, ih]
      by_cases h2 : k0 = k2
      · subst h2
        rw [if_pos rfl, if_pos rfl, if_neg (fun he => h0 he.symm)]
      · rw [if_neg h2, if_neg h2]

/-- `mapGet` commutes with a key-only `filter`. -/
theorem mapGet_filter (p : Str → Bool) (m : List (Str × Str)) (k : Str) :
    mapGet (m.filter (fun kv => p kv.1)) k = if p k then mapGet m k else none := by
  induction m with
  | nil => cases hp : p k <;> simp [mapGet, hp]
  | cons kv rest ih =>
    obtain ⟨k0, v0⟩ := kv
    rw [List.filter_cons]
    by_cases h0 : k0 = k
    · subst h0
      cases hp : p k0 <;> simp [hp, ih, mapGet_cons]
    · cases hp : p k0 <;> simp [hp, ih, mapGet_cons, h0]

/-- Eliminator for a successful local extraction: exposes the parsed
pathname, the search-params map, the short code, and the exact record
`parseURL` builds from them. -/
theorem parseURL_some_elim {baseUrl : Option Str} {url : Str} {d : DeepLinkData}
    (h : parseURL baseUrl url = some d) :
    ∃ pn params sc, parseUrlString url = some (pn, params) ∧
      ((jsSplit '/' pn).filter (fun s => !s.isEmpty)).getLast? = some sc ∧
      d = { shortCode := sc
            utmParameters := some { source := jsGetTruthy params (("utm_source").toList)
                                    medium := jsGetTruthy params (("utm_medium").toList)
                                    campaign := jsGetTruthy params (("utm_campaign").toList)
                                    term := jsGetTruthy params (("utm_term").toList)
                                    content := jsGetTruthy params (("utm_content").toList) }
            customParameters :=
              if (params.filter (fun kv => !((("utm_").toList).isPrefixOf kv.1))).length > 0
              then some (params.filter (fun kv => !((("utm_").toList).isPrefixOf kv.1)))
              else none } := by
  unfold parseURL at h
  split at h
  · exact absurd h (by simp)
  · split at h
    · exact absurd h (by simp)
    · rename_i pathname searchParams heq
      dsimp only at h
      split at h
      · exact absurd h (by simp)
      · rename_i sc hsc
        split at h
        · exact absurd h (by simp)
        · exact ⟨pathname, searchParams, sc, heq, hsc, (Option.some.inj h).symm⟩

/-- `lookupCustom` through the length-guarded option `parseURL` builds. -/
theorem lookupCustom_lengthIf (F : List (Str × Str)) (k : Str) :
    lookupCustom (if F.length > 0 then some F else none) k = mapGet F k := by
  by_cases h : F.length > 0
  · rw [if_pos h]
    rfl
  · rw [if_neg h]
    have hF : F = [] := List.length_eq_zero.mp (by omega)
    subst hF
    simp [lookupCustom, mapGet]

/-- C7: every locally extracted record has `shortCode` equal to the last
non-empty path segment, and `customParameters` containing exactly the
non-`utm_` query parameters — absent (not an empty mapping) when there
are none. -/
theorem c7_local_extraction (baseUrl : Option Str) (url : Str) (d : DeepLinkData)
    (pn : Str) (params : List (Str × Str))
    (hd : parseURL baseUrl url = some d)
    (hp : parseUrlString url = some (pn, params)) :
    some d.shortCode = ((jsSplit '/' pn).filter (fun s => !s.isEmpty)).getLast? ∧
    (∀ k, (("utm_").toList).isPrefixOf k = false →
      lookupCustom d.customParameters k = mapGet params k) ∧
    (∀ k, (("utm_").toList).isPrefixOf k = true →
      lookupCustom d.customParameters k = none) ∧
    (params.filter (fun kv => !((("utm_").toList).isPrefixOf kv.1)) = [] ↔
      d.customParameters = none) := by
  obtain ⟨pn2, params2, sc, hp2, hsc, hdef⟩ := parseURL_some_elim hd
  rw [hp] at hp2
  have hpair := Option.some.inj hp2
  have hpn : pn = pn2 := congrArg Prod.fst hpair
  have hpar : params = params2 := congrArg Prod.snd hpair
  subst hpn
  subst hpar
  subst hdef
  refine ⟨hsc.symm, ?_, ?_, ?_⟩
  · intro k hk
    have hval : mapGet (params.filter (fun kv => !((("utm_").toList).isPrefixOf kv.1))) k =
        if (!((("utm_").toList).isPrefixOf k)) = true then mapGet params k else none :=
      mapGet_filter (fun key => !((("utm_").toList).isPrefixOf key)) params k
    rw [hk] at hval
    simp only [Bool.not_false, if_true] at hval
    exact (lookupCustom_lengthIf _ k).trans hval
  · intro k hk
    have hval : mapGet (params.filter (fun kv => !((("utm_").toList).isPrefixOf kv.1))) k =
        if (!((("utm_").toList).isPrefixOf k)) = true then mapGet params k else none :=
      mapGet_filter (fun key => !((("utm_").toList).isPrefixOf key)) params k
    rw [hk] at hval
    simp only [Bool.not_true, Bool.false_eq_true, if_false] at hval
    exact (lookupCustom_lengthIf _ k).trans hval
  · constructor
    · intro hF
      show (if (params.filter (fun kv => !((("utm_").toList).isPrefixOf kv.1))).length > 0
        then some (params.filter (fun kv => !((("utm_").toList).isPrefixOf kv.1)))
        else none) = none
      rw [hF]
      simp
    · intro hnone
      replace hnone :
          (if (params.filter (fun kv => !((("utm_").toList).isPrefixOf kv.1))).length > 0
            then some (params.filter (fun kv => !((("utm_").toList).isPrefixOf kv.1)))
            else none) = none := hnone
      by_cases hlen :
          (params.filter (fun kv => !((("utm_").toList).isPrefixOf kv.1))).length > 0
      · rw [if_pos hlen] at hnone
        exact absurd hnone (by simp)
      · exact List.length_eq_zero.mp (by omega)

/-- Witness for C7 at the spec's example URL. -/
theorem c7_local_extraction_witness :
    (some (({ shortCode := ("abc123").toList
              utmParameters := some { source := some (("fb").toList) }
              customParameters := some [(("ref").toList, ("42").toList)] } :
        DeepLinkData)).shortCode =
      ((jsSplit '/' (("/promoSlug/abc123").toList)).filter (fun s => !s.isEmpty)).getLast?) ∧
    lookupCustom (some [(("ref").toList, ("42").toList)]) (("ref").toList) =
      mapGet [(("utm_source").toList, ("fb").toList), (("ref").toList, ("42").toList)]
        (("ref").toList) ∧
    lookupCustom (some [(("ref").toList, ("42").toList)]) (("utm_source").toList) = none := by
  have h := c7_local_extraction (some (("https://go.test").toList))
    (("https://go.test/promoSlug/abc123?utm_source=fb&ref=42").toList)
    { shortCode := ("abc123").toList
      utmParameters := some { source := some (("fb").toList) }
      customParameters := some [(("ref").toList, ("42").toList)] }
    (("/promoSlug/abc123").toList)
    [(("utm_source").toList, ("fb").toList), (("ref").toList, ("42").toList)]
    (by decide) (by decide)
  exact ⟨h.1, h.2.1 (("ref").toList) (by decide), h.2.2.1 (("utm_source").toList) (by decide)⟩

/-- C10: a `utm_`-prefixed parameter among the five recognized fields
whose decoded value is empty is treated as absent in `utmParameters`
(the `|| undefined` coercion), while a non-`utm_` parameter with an
empty value is kept in `customParameters` with value `""`. -/
theorem c10_empty_values (baseUrl : Option Str) (url : Str) (d : DeepLinkData)
    (pn : Str) (params : List (Str × Str))
    (hd : parseURL baseUrl url = some d)
    (hp : parseUrlString url = some (pn, params)) :
    (∃ u, d.utmParameters = some u ∧
      (mapGet params (("utm_source").toList) = some [] → u.source = none) ∧
      (mapGet params (("utm_medium").toList) = some [] → u.medium = none) ∧
      (mapGet params (("utm_campaign").toList) = some [] → u.campaign = none) ∧
      (mapGet params (("utm_term").toList) = some [] → u.term = none) ∧
      (mapGet params (("utm_content").toList) = some [] → u.content = none)) ∧
    (∀ k, (("utm_").toList).isPrefixOf k = false → mapGet params k = some [] →
      ∃ cm, d.customParameters = some cm ∧ mapGet cm k = some []) := by
  obtain ⟨pn2, params2, sc, hp2, hsc, hdef⟩ := parseURL_some_elim hd
  rw [hp] at hp2
  have hpair := Option.some.inj hp2
  have hpn : pn = pn2 := congrArg Prod.fst hpair
  have hpar : params = params2 := congrArg Prod.snd hpair
  subst hpn
  subst hpar
  subst hdef
  constructor
  · refine ⟨_, rfl, ?_, ?_, ?_, ?_, ?_⟩ <;>
    · intro hk
      show jsGetTruthy params _ = none
      unfold jsGetTruthy
      rw [hk]
      simp
  · intro k hk hv
    have hval : mapGet (params.filter (fun kv => !((("utm_").toList).isPrefixOf kv.1))) k =
        if (!((("utm_").toList).isPrefixOf k)) = true then mapGet params k else none :=
      mapGet_filter (fun key => !((("utm_").toList).isPrefixOf key)) params k
    rw [hk] at hval
    simp only [Bool.not_false, if_true] at hval
    rw [hv] at hval
    have hne : params.filter (fun kv => !((("utm_").toList).isPrefixOf kv.1)) ≠ [] := by
      intro hF
      rw [hF] at hval
      exact absurd hval (by simp [mapGet])
    have hlen : (params.filter (fun kv => !((("utm_").toList).isPrefixOf kv.1))).length > 0 :=
      List.length_pos.mpr hne
    refine ⟨params.filter (fun kv => !((("utm_").toList).isPrefixOf kv.1)), ?_, hval⟩
    show (if (params.filter (fun kv => !((("utm_").toList).isPrefixOf kv.1))).length > 0
      then some (params.filter (fun kv => !((("utm_").toList).isPrefixOf kv.1)))
      else none) = some (params.filter (fun kv => !((("utm_").toList).isPrefixOf kv.1)))
    rw [if_pos hlen]

/-- Witness for C10 at a URL carrying an empty `utm_source` and an empty
custom parameter. -/
theorem c10_empty_values_witness :
    (∃ u, (({ shortCode := ("a").toList
              utmParameters := some ({} : UtmParameters)
              customParameters := some [(("x").toList, [])] } :
        DeepLinkData)).utmParameters = some u ∧
      (mapGet [(("utm_source").toList, []), (("x").toList, [])] (("utm_source").toList) =
          some [] → u.source = none) ∧
      (mapGet [(("utm_source").toList, []), (("x").toList, [])] (("utm_medium").toList) =
          some [] → u.medium = none) ∧
      (mapGet [(("utm_source").toList, []), (("x").toList, [])] (("utm_campaign").toList) =
          some [] → u.campaign = none) ∧
      (mapGet [(("utm_source").toList, []), (("x").toList, [])] (("utm_term").toList) =
          some [] → u.term = none) ∧
      (mapGet [(("utm_source").toList, []), (("x").toList, [])] (("utm_content").toList) =
          some [] → u.content = none)) ∧
    ∃ cm, (({ shortCode := ("a").toList
              utmParameters := some ({} : UtmParameters)
              customParameters := some [(("x").toList, [])] } :
        DeepLinkData)).customParameters = some cm ∧ mapGet cm (("x").toList) = some [] := by
  have h := c10_empty_values (some (("https://go.test").toList))
    (("https://go.test/a?utm_source=&x=").toList)
    { shortCode := ("a").toList
      utmParameters := some ({} : UtmParameters)
      customParameters := some [(("x").toList, [])] }
    (("/a").toList)
    [(("utm_source").toList, []), (("x").toList, [])]
    (by decide) (by decide)
  exact ⟨h.1, h.2 (("x").toList) (by decide) (by decide)⟩

/-- `idxOf` at a matching head. -/
theorem idxOf_cons_self (c : Char) (rest : Str) : idxOf c (c :: rest) = some 0 := by
  simp [idxOf]

/-- `idxOf` at a non-matching head. -/
theorem idxOf_cons_ne {x c : Char} (rest : Str) (h : x ≠ c) :
    idxOf c (x :: rest) = (idxOf c rest).map (fun i => i + 1) := by
  simp [idxOf, h]

/-- Pushing a neutral head through the two-stage cut. -/
theorem hashThenQueryCut_cons {c : Char} (rest : Str) (h1 : c ≠ '#') (h2 : c ≠ '?') :
    hashThenQueryCut (c :: rest) = c :: hashThenQueryCut rest := by
  unfold hashThenQueryCut
  rw [idxOf_cons_ne rest h1]
  cases hh : idxOf '#' rest with
  | none =>
    simp only [Option.map_none']
    rw [idxOf_cons_ne rest h2]
    cases hq : idxOf '?' rest with
    | none => simp
    | some q => simp [List.take_succ_cons]
  | some i =>
    simp only [Option.map_some', List.take_succ_cons]
    rw [idxOf_cons_ne (rest.take i) h2]
    cases hq : idxOf '?' (rest.take i) with
    | none => simp
    | some q => simp [List.take_succ_cons]

/-- Pushing a neutral head through `cutAt`. -/
theorem cutAt_cons {c : Char} (rest : Str) (h1 : c ≠ '#') (h2 : c ≠ '?') :
    cutAt (c :: rest) = cutAt rest + 1 := by
  unfold cutAt
  rw [idxOf_cons_ne rest h1, idxOf_cons_ne rest h2]
  cases hh : idxOf '#' rest with
  | none =>
    cases hq : idxOf '?' rest with
    | none => simp
    | some j => simp
  | some i =>
    cases hq : idxOf '?' rest with
    | none => simp
    | some j => simp [Nat.succ_min_succ]

/-- The code's hash-then-query truncation equals a single truncation at
the earliest `#` or `?`. -/
theorem hashThenQueryCut_eq_take_cutAt (p : Str) : p.take (cutAt p) = hashThenQueryCut p := by
  induction p with
  | nil => rfl
  | cons c rest ih =>
    by_cases h1 : c = '#'
    · subst h1
      unfold hashThenQueryCut cutAt
      rw [idxOf_cons_self, idxOf_cons_ne rest (by decide)]
      cases hq : idxOf '?' rest with
      | none => simp [idxOf]
      | some j => simp [idxOf, Nat.zero_min]
    · by_cases h2 : c = '?'
      · subst h2
        unfold hashThenQueryCut cutAt
        rw [idxOf_cons_self, idxOf_cons_ne rest (by intro he; exact h1 he)]
        cases hh : idxOf '#' rest with
        | none => simp [idxOf_cons_self]
        | some i =>
          simp only [Option.map_some', List.take_succ_cons]
          rw [idxOf_cons_self]
          simp [Nat.min_comm, Nat.zero_min]
      · rw [hashThenQueryCut_cons rest h1 h2, cutAt_cons rest h1 h2,
          List.take_succ_cons, ih]

/-- `amendedPath` through `pathAndQueryOf`. -/
theorem amendedPath_eq (url : Str) :
    amendedPath url = (pathAndQueryOf url).map (fun pq => pq.take (cutAt pq)) := by
  unfold amendedPath pathAndQueryOf
  cases findSub [':', '/', '/'] url with
  | none => rfl
  | some protocolEnd =>
    simp only [Option.map_some']
    cases idxOf '/' (url.drop (protocolEnd + 3)) with
    | none => rfl
    | some pathStart => rfl

/-- C4, counterexample: for `https://h#/x` the parser's path is `/x`
(the `/` after the `#` starts the path), while the claim's
fragment-stripped-first rule yields `/`. -/
theorem c4_claim_false : ¬ClaimC4Statement := by
  intro h
  have h2 := h (("https://h#/x").toList) (("/x").toList) [] (by decide) (by decide)
  exact absurd h2 (by decide)

/-- C4, amended: for every URL whose parse succeeds, the parser's path is
the substring from the first `/` after `://` — located in the full URL,
before the fragment is stripped — truncated at the earliest `?` or `#`;
`/` when no `/` follows `://`. -/
theorem c4_amended_path (url pathname : Str) (m : List (Str × Str))
    (h : parseUrlString url = some (pathname, m)) :
    amendedPath url = some pathname := by
  obtain ⟨pq, hpq, hpn⟩ := parseUrlString_path_shape h
  rw [amendedPath_eq, hpq, Option.map_some', hashThenQueryCut_eq_take_cutAt, hpn]

/-- Witness for C4 (amended) at the counterexample URL itself. -/
theorem c4_amended_path_witness :
    amendedPath (("https://h#/x").toList) = some (("/x").toList) :=
  c4_amended_path (("https://h#/x").toList) (("/x").toList) [] (by decide)

/-- `parsePair` is `decodePair` followed by `Map.set`. -/
theorem parsePair_decodePair (m : List (Str × Str)) (pair : Str) :
    parsePair m pair = (decodePair pair).map (fun kv => mapSet m kv.1 kv.2) := by
  unfold parsePair decodePair
  cases hi : idxOf '=' pair with
  | none =>
    show (decodeURIComponentChars pair).map (fun k => mapSet m k []) =
      Option.map (fun kv => mapSet m kv.1 kv.2)
        ((decodeURIComponentChars pair).map (fun k => (k, [])))
    cases decodeURIComponentChars pair <;> rfl
  | some eqIndex =>
    show (match decodeURIComponentChars (pair.take eqIndex),
          decodeURIComponentChars (pair.drop (eqIndex + 1)) with
      | some k, some v => some (mapSet m k v)
      | _, _ => none) =
      Option.map (fun kv => mapSet m kv.1 kv.2)
        (match decodeURIComponentChars (pair.take eqIndex),
              decodeURIComponentChars (pair.drop (eqIndex + 1)) with
        | some k, some v => some (k, v)
        | _, _ => none)
    cases decodeURIComponentChars (pair.take eqIndex) <;>
      cases decodeURIComponentChars (pair.drop (eqIndex + 1)) <;> rfl

/-- The query fold fails exactly when some raw pair fails to decode. -/
theorem foldlM_parsePair_none (l : List Str) (m0 : List (Str × Str)) :
    l.foldlM parsePair m0 = none ↔ ∃ pair ∈ l, decodePair pair = none := by
  induction l generalizing m0 with
  | nil => simp
  | cons p l ih =>
    rw [List.foldlM_cons]
    cases hdp : decodePair p with
    | none =>
      rw [parsePair_decodePair, hdp]
      simp only [Option.map_none']
      constructor
      · intro _
        exact ⟨p, List.mem_cons_self p l, hdp⟩
      · intro _
        rfl
    | some kv =>
      rw [parsePair_decodePair, hdp]
      simp only [Option.map_some']
      constructor
      · intro h
        replace h : l.foldlM parsePair (mapSet m0 kv.1 kv.2) = none := h
        obtain ⟨pair, hmem, hpair⟩ := (ih (mapSet m0 kv.1 kv.2)).mp h
        exact ⟨pair, List.mem_cons.mpr (Or.inr hmem), hpair⟩
      · rintro ⟨pair, hmem, hpair⟩
        rcases List.mem_cons.mp hmem with he | hm
        · subst he
          rw [hpair] at hdp
          exact absurd hdp (by simp)
        · show l.foldlM parsePair (mapSet m0 kv.1 kv.2) = none
          exact (ih (mapSet m0 kv.1 kv.2)).mpr ⟨pair, hm, hpair⟩

/-- A successful query fold reads back, for every key, the value of the
last raw pair whose decoded key matches (falling back to the initial
map). -/
theorem foldlM_parsePair_mapGet (l : List Str) (m0 m : List (Str × Str))
    (h : l.foldlM parsePair m0 = some m) (k : Str) :
    mapGet m k =
      match l.reverse.findSome? (fun pair =>
        match decodePair pair with
        | some kv => if kv.1 = k then some kv.2 else none
        | none => none) with
      | some v => some v
      | none => mapGet m0 k := by
  induction l generalizing m0 with
  | nil =>
    replace h : some m0 = some m := h
    cases Option.some.inj h
    simp
  | cons p l ih =>
    rw [List.foldlM_cons] at h
    cases hdp : decodePair p with
    | none =>
      rw [parsePair_decodePair, hdp] at h
      exact absurd h (by simp)
    | some kv =>
      rw [parsePair_decodePair, hdp] at h
      simp only [Option.map_some'] at h
      replace h : l.foldlM parsePair (mapSet m0 kv.1 kv.2) = some m := h
      have hrec := ih (mapSet m0 kv.1 kv.2) h
      rw [hrec, List.reverse_cons, List.findSome?_append]
      cases hfind : l.reverse.findSome? (fun pair =>
          match decodePair pair with
          | some kv => if kv.1 = k then some kv.2 else none
          | none => none) with
      | some v => rfl
      | none =>
        simp only [Option.none_or]
        rw [List.findSome?_cons, hdp]
        rw [mapGet_mapSet]
        by_cases hk : kv.1 = k
        · simp [hk]
        · simp [hk]

/-- C5: query parsing splits on `&`, decodes each pair independently
(first `=` as the separator, empty value when absent), keeps the last
occurrence on duplicate keys, and any decode failure is an overall parse
failure (both of the fold and of the whole URL parse). -/
theorem c5_query_parsing (q : Str) (hq : q ≠ []) :
    (parseQuery q = none ↔ ∃ pair ∈ jsSplit '&' q, decodePair pair = none) ∧
    (∀ m, parseQuery q = some m → ∀ k, mapGet m k = lastDecoded q k) ∧
    (∀ url pq, pathAndQueryOf url = some pq → queryStringOf pq = q →
      (parseUrlString url = none ↔ parseQuery q = none)) := by
  refine ⟨foldlM_parsePair_none (jsSplit '&' q) [], ?_, ?_⟩
  · intro m hm k
    have hrw := foldlM_parsePair_mapGet (jsSplit '&' q) [] m hm k
    rw [hrw]
    unfold lastDecoded
    cases (jsSplit '&' q).reverse.findSome? (fun pair =>
        match decodePair pair with
        | some kv => if kv.1 = k then some kv.2 else none
        | none => none) with
    | some v => rfl
    | none => rfl
  · intro url pq hpq hqs
    rw [parseUrlString_eq, hpq]
    dsimp only
    rw [hqs, if_neg hq]
    constructor
    · intro h
      cases hp : parseQuery q with
      | none => rfl
      | some m =>
        rw [hp] at h
        exact absurd h (by simp)
    · intro h
      rw [h]
      rfl

/-- Witness for C5: duplicate key `a` resolves to the last value, on a
concrete query string. -/
theorem c5_query_parsing_witness :
    mapGet [(("a").toList, ("2").toList), (("b").toList, [])] (("a").toList) =
      lastDecoded (("a=1&a=2&b").toList) (("a").toList) :=
  ((c5_query_parsing (("a=1&a=2&b").toList) (by decide)).2.1
    [(("a").toList, ("2").toList), (("b").toList, [])] (by decide)) (("a").toList)

/-- One-step unfolding: end of stream between scalars. -/
theorem decodeLoop_nil : decodeLoop none [] = some [] := rfl

/-- One-step unfolding: a literal character between scalars. -/
theorem decodeLoop_chr (c : Char) (ts : List Tok) :
    decodeLoop none (Tok.chr c :: ts) = (decodeLoop none ts).map (fun s => c :: s) := rfl

/-- One-step unfolding: a leading byte between scalars. -/
theorem decodeLoop_byte (b0 : Nat) (ts : List Tok) :
    decodeLoop none (Tok.byte b0 :: ts) =
      (if b0 ≤ 127 then (decodeLoop none ts).map (fun s => Char.ofNat b0 :: s)
      else if 194 ≤ b0 ∧ b0 ≤ 223 then decodeLoop (some (b0 - 192, 1, 128)) ts
      else if 224 ≤ b0 ∧ b0 ≤ 239 then decodeLoop (some (b0 - 224, 2, 2048)) ts
      else if 240 ≤ b0 ∧ b0 ≤ 244 then decodeLoop (some (b0 - 240, 3, 65536)) ts
      else none) := rfl

/-- One-step unfolding: a byte while a sequence is pending. -/
theorem decodeLoop_cont (acc need lo b : Nat) (ts : List Tok) :
    decodeLoop (some (acc, need, lo)) (Tok.byte b :: ts) =
      (if contByte b then
        if need = 1 then
          if lo ≤ acc * 64 + (b - 128) ∧ acc * 64 + (b - 128) < 1114112 ∧
              ¬(55296 ≤ acc * 64 + (b - 128) ∧ acc * 64 + (b - 128) ≤ 57343) then
            (decodeLoop none ts).map (fun s => Char.ofNat (acc * 64 + (b - 128)) :: s)
          else none
        else decodeLoop (some (acc * 64 + (b - 128), need - 1, lo)) ts
      else none) := rfl

/-- A character's code point is a Unicode scalar value. -/
theorem char_valid_nat (c : Char) :
    c.toNat < 55296 ∨ (57343 < c.toNat ∧ c.toNat < 1114112) := c.valid

/-- Code points are below 0x110000. -/
theorem char_toNat_lt (c : Char) : c.toNat < 1114112 := by
  have h := char_valid_nat c
  omega

/-- `hexVal` inverts `hexDigitUpper` below 16. -/
theorem hexVal_hexDigitUpper (m : Nat) (h : m < 16) :
    hexVal (hexDigitUpper m) = some m := by
  interval_cases m <;> decide

/-- UTF-8 bytes of an in-range code point are bytes. -/
theorem utf8Bytes_lt_256 {n b : Nat} (hn : n < 1114112) (hb : b ∈ utf8Bytes n) : b < 256 := by
  unfold utf8Bytes at hb
  split at hb
  · simp at hb
    omega
  · split at hb
    · simp at hb
      rcases hb with hb | hb <;> omega
    · split at hb
      · simp at hb
        rcases hb with hb | hb | hb <;> omega
      · simp at hb
        rcases hb with hb | hb | hb | hb <;> omega

/-- Decoding the UTF-8 byte tokens of a Unicode scalar value prepends
exactly that scalar. -/
theorem decodeLoop_utf8 (n : Nat)
    (hv : n < 55296 ∨ (57343 < n ∧ n < 1114112)) (ts : List Tok) :
    decodeLoop none ((utf8Bytes n).map Tok.byte ++ ts) =
      (decodeLoop none ts).map (fun s => Char.ofNat n :: s) := by
  unfold utf8Bytes
  by_cases h1 : n ≤ 127
  · rw [if_pos h1]
    simp only [List.map_cons, List.map_nil, List.cons_append, List.nil_append]
    rw [decodeLoop_byte, if_pos h1]
  · rw [if_neg h1]
    by_cases h2 : n ≤ 2047
    · rw [if_pos h2]
      simp only [List.map_cons, List.map_nil, List.cons_append, List.nil_append]
      rw [decodeLoop_byte, if_neg (by omega), if_pos (by omega)]
      rw [decodeLoop_cont,
        if_pos (show contByte (128 + n % 64) by simp only [contByte]; omega),
        if_pos rfl, if_pos (by refine ⟨by omega, by omega, by omega⟩)]
      have harith : (192 + n / 64 - 192) * 64 + (128 + n % 64 - 128) = n := by omega
      rw [harith]
    · rw [if_neg h2]
      by_cases h3 : n ≤ 65535
      · rw [if_pos h3]
        simp only [List.map_cons, List.map_nil, List.cons_append, List.nil_append]
        rw [decodeLoop_byte, if_neg (by omega), if_neg (by omega), if_pos (by omega)]
        rw [decodeLoop_cont,
          if_pos (show contByte (128 + n / 64 % 64) by simp only [contByte]; omega),
          if_neg (by omega)]
        rw [decodeLoop_cont,
          if_pos (show contByte (128 + n % 64) by simp only [contByte]; omega),
          if_pos rfl, if_pos (by refine ⟨by omega, by omega, by omega⟩)]
        have harith :
            ((224 + n / 4096 - 224) * 64 + (128 + n / 64 % 64 - 128)) * 64
              + (128 + n % 64 - 128) = n := by omega
        rw [harith]
      · have h4 : n < 1114112 := by omega
        rw [if_neg h3]
        simp only [List.map_cons, List.map_nil, List.cons_append, List.nil_append]
        rw [decodeLoop_byte, if_neg (by omega), if_neg (by omega), if_neg (by omega),
          if_pos (by omega)]
        rw [decodeLoop_cont,
          if_pos (show contByte (128 + n / 4096 % 64) by simp only [contByte]; omega),
          if_neg (by omega)]
        rw [decodeLoop_cont,
          if_pos (show contByte (128 + n / 64 % 64) by simp only [contByte]; omega),
          if_neg (by omega)]
        rw [decodeLoop_cont,
          if_pos (show contByte (128 + n % 64) by simp only [contByte]; omega),
          if_pos rfl, if_pos (by refine ⟨by omega, by omega, by omega⟩)]
        have harith :
            (((240 + n / 262144 - 240) * 64 + (128 + n / 4096 % 64 - 128)) * 64
              + (128 + n / 64 % 64 - 128)) * 64 + (128 + n % 64 - 128) = n := by omega
        rw [harith]

/-- One-step unfolding of `tokenize` on a non-escape character. -/
theorem tokenize_chr_cons (c : Char) (rest : Str) (hc : ¬ c = '%') :
    tokenize (c :: rest) = (tokenize rest).map (fun ts => Tok.chr c :: ts) := by
  match rest with
  | [] =>
    rw [show tokenize [c] = if c = '%' then none else some [Tok.chr c] from rfl, if_neg hc]
    rfl
  | [c1] =>
    rw [show tokenize [c, c1] =
      (if c = '%' then none else (tokenize [c1]).map (fun ts => Tok.chr c :: ts)) from rfl,
      if_neg hc]
  | h1 :: h2 :: r2 =>
    rw [show tokenize (c :: h1 :: h2 :: r2) =
      (if c = '%' then
        match hexVal h1, hexVal h2 with
        | some a, some b => (tokenize r2).map (fun ts => Tok.byte (16 * a + b) :: ts)
        | _, _ => none
      else (tokenize (h1 :: h2 :: r2)).map (fun ts => Tok.chr c :: ts)) from rfl,
      if_neg hc]

/-- `tokenize` on a full percent escape. -/
theorem tokenize_pct (h1 h2 : Char) (rest2 : Str) :
    tokenize ('%' :: h1 :: h2 :: rest2) =
      (match hexVal h1, hexVal h2 with
      | some a, some b => (tokenize rest2).map (fun ts => Tok.byte (16 * a + b) :: ts)
      | _, _ => none) := by
  rw [show tokenize ('%' :: h1 :: h2 :: rest2) =
    (if ('%' : Char) = '%' then
      match hexVal h1, hexVal h2 with
      | some a, some b => (tokenize rest2).map (fun ts => Tok.byte (16 * a + b) :: ts)
      | _, _ => none
    else (tokenize (h1 :: h2 :: rest2)).map (fun ts => Tok.chr '%' :: ts)) from rfl,
    if_pos rfl]

/-- `tokenize` on the percent escape `encodeURIComponent` emits for one
byte. -/
theorem tokenize_pct_byte (b : Nat) (hb : b < 256) (rest2 : Str) :
    tokenize ('%' :: hexDigitUpper (b / 16) :: hexDigitUpper (b % 16) :: rest2) =
      (tokenize rest2).map (fun ts => Tok.byte b :: ts) := by
  rw [tokenize_pct, hexVal_hexDigitUpper (b / 16) (by omega),
    hexVal_hexDigitUpper (b % 16) (by omega)]
  show (tokenize rest2).map (fun ts => Tok.byte (16 * (b / 16) + b % 16) :: ts) =
    (tokenize rest2).map (fun ts => Tok.byte b :: ts)
  have hbb : 16 * (b / 16) + b % 16 = b := by omega
  rw [hbb]

/-- `tokenize` on a run of percent-escaped bytes. -/
theorem tokenize_pct_triples (bs : List Nat) (hbs : ∀ b ∈ bs, b < 256) (rest : Str) :
    tokenize ((bs.map (fun b => ['%', hexDigitUpper (b / 16), hexDigitUpper (b % 16)])).flatten
        ++ rest) =
      (tokenize rest).map (fun ts => bs.map Tok.byte ++ ts) := by
  induction bs with
  | nil =>
    simp only [List.map_nil, List.flatten_nil, List.nil_append]
    cases tokenize rest <;> rfl
  | cons b bs ih =>
    have hb : b < 256 := hbs b (List.mem_cons_self b bs)
    have htail : ∀ x ∈ bs, x < 256 := fun x hx => hbs x (List.mem_cons.mpr (Or.inr hx))
    simp only [List.map_cons, List.flatten_cons, List.append_assoc, List.cons_append,
      List.nil_append]
    rw [tokenize_pct_byte b hb, ih htail]
    cases tokenize rest <;> rfl

/-- The percent character is not left unescaped. -/
theorem pct_not_unreserved : ¬ isUnreserved '%' := by decide

/-- `tokenize` after prepending one encoded character. -/
theorem tokenize_encodeChar (c : Char) (rest : Str) :
    tokenize (encodeChar c ++ rest) =
      (tokenize rest).map (fun ts =>
        (if isUnreserved c then [Tok.chr c] else (utf8Bytes c.toNat).map Tok.byte) ++ ts) := by
  unfold encodeChar
  by_cases hu : isUnreserved c
  · rw [if_pos hu, if_pos hu]
    simp only [List.cons_append, List.nil_append]
    rw [tokenize_chr_cons c rest (by intro he; exact pct_not_unreserved (he ▸ hu))]
  · rw [if_neg hu, if_neg hu]
    exact tokenize_pct_triples (utf8Bytes c.toNat)
      (fun b hb => utf8Bytes_lt_256 (char_toNat_lt c) hb) rest

/-- Decoding the token form of one encoded character prepends exactly
that character. -/
theorem decodeLoop_encTok (c : Char) (ts : List Tok) :
    decodeLoop none
        ((if isUnreserved c then [Tok.chr c] else (utf8Bytes c.toNat).map Tok.byte) ++ ts) =
      (decodeLoop none ts).map (fun s => c :: s) := by
  by_cases hu : isUnreserved c
  · rw [if_pos hu]
    simp only [List.cons_append, List.nil_append]
    rw [decodeLoop_chr]
  · rw [if_neg hu]
    rw [decodeLoop_utf8 c.toNat (char_valid_nat c) ts, Char.ofNat_toNat]

/-- Percent-decoding inverts percent-encoding on every string. -/
theorem decode_encode (s : Str) :
    decodeURIComponentChars (encodeURIComponentChars s) = some s := by
  induction s with
  | nil => rfl
  | cons c s ih =>
    unfold decodeURIComponentChars at ih ⊢
    have henc : encodeURIComponentChars (c :: s) = encodeChar c ++ encodeURIComponentChars s := by
      unfold encodeURIComponentChars
      simp [List.map_cons, List.flatten_cons]
    rw [henc, tokenize_encodeChar]
    cases htok : tokenize (encodeURIComponentChars s) with
    | none =>
      rw [htok] at ih
      exact absurd ih (by simp)
    | some ts =>
      rw [htok] at ih
      simp only [Option.map_some']
      show decodeTokens
        ((if isUnreserved c then [Tok.chr c] else (utf8Bytes c.toNat).map Tok.byte) ++ ts) =
        some (c :: s)
      unfold decodeTokens
      rw [decodeLoop_encTok]
      replace ih : decodeLoop none ts = some s := ih
      rw [ih]
      rfl

/-- Hex digits are unescaped characters. -/
theorem hexDigitUpper_unreserved (m : Nat) (h : m < 16) : isUnreserved (hexDigitUpper m) := by
  interval_cases m <;> decide

/-- Every character `encodeURIComponent` emits is either unescaped or the
percent sign. -/
theorem mem_encodeChar {c x : Char} (h : c ∈ encodeChar x) : isUnreserved c ∨ c = '%' := by
  unfold encodeChar at h
  by_cases hu : isUnreserved x
  · rw [if_pos hu] at h
    rcases List.mem_singleton.mp h with rfl
    exact Or.inl hu
  · rw [if_neg hu] at h
    rw [List.mem_flatten] at h
    obtain ⟨tri, htri, hc⟩ := h
    rw [List.mem_map] at htri
    obtain ⟨b, hb, rfl⟩ := htri
    have hblt : b < 256 := utf8Bytes_lt_256 (char_toNat_lt x) hb
    rcases List.mem_cons.mp hc with rfl | hc2
    · exact Or.inr rfl
    rcases List.mem_cons.mp hc2 with rfl | hc3
    · exact Or.inl (hexDigitUpper_unreserved (b / 16) (by omega))
    rcases List.mem_cons.mp hc3 with rfl | hc4
    · exact Or.inl (hexDigitUpper_unreserved (b % 16) (by omega))
    · exact absurd hc4 (by simp)

/-- A character that is neither unescaped nor `%` never occurs in
percent-encoded output. -/
theorem not_mem_encode (bad : Char) (h1 : ¬ isUnreserved bad) (h2 : bad ≠ '%') (s : Str) :
    bad ∉ encodeURIComponentChars s := by
  intro hin
  unfold encodeURIComponentChars at hin
  rw [List.mem_flatten] at hin
  obtain ⟨piece, hpiece, hc⟩ := hin
  rw [List.mem_map] at hpiece
  obtain ⟨x, _, rfl⟩ := hpiece
  rcases mem_encodeChar hc with h | h
  · exact h1 h
  · exact h2 h

/-- `idxOf` misses a character that does not occur. -/
theorem idxOf_eq_none_of_not_mem {c : Char} {l : Str} (h : c ∉ l) : idxOf c l = none := by
  induction l with
  | nil => rfl
  | cons x rest ih =>
    have hx : x ≠ c := fun he => h (he ▸ List.mem_cons_self x rest)
    rw [idxOf_cons_ne rest hx, ih (fun hin => h (List.mem_cons.mpr (Or.inr hin)))]
    rfl

/-- `idxOf` finds the separator right after a separator-free prefix. -/
theorem idxOf_append_first (c : Char) (A B : Str) (h : c ∉ A) :
    idxOf c (A ++ c :: B) = some A.length := by
  induction A with
  | nil => simp [idxOf_cons_self]
  | cons a A ih =>
    have ha : a ≠ c := fun he => h (he ▸ List.mem_cons_self a A)
    rw [List.cons_append, idxOf_cons_ne (A ++ c :: B) ha,
      ih (fun hin => h (List.mem_cons.mpr (Or.inr hin)))]
    rfl

/-- `jsSplit` on a separator-free string is the singleton part. -/
theorem jsSplit_single {sep : Char} {l : Str} (h : sep ∉ l) : jsSplit sep l = [l] := by
  induction l with
  | nil => rfl
  | cons c rest ih =>
    have hc : c ≠ sep := fun he => h (he ▸ List.mem_cons_self c rest)
    have hrest := ih (fun hin => h (List.mem_cons.mpr (Or.inr hin)))
    rw [show jsSplit sep (c :: rest) =
      (match jsSplit sep rest with
      | [] => [[c]]
      | h :: t => if c = sep then [] :: h :: t else (c :: h) :: t) from rfl, hrest]
    simp [hc]

/-- Parsing `https://h/p?` followed by a `#`-free non-empty query string
reduces to `parseQuery` on that query string. -/
theorem parseUrlString_hp (q : Str) (hqne : q ≠ []) (hHash : '#' ∉ q)
    (m : List (Str × Str)) (hparse : parseQuery q = some m) :
    parseUrlString (("https://h/p?").toList ++ q) = some (("/p").toList, m) := by
  rw [parseUrlString_eq]
  have h1 : pathAndQueryOf (("https://h/p?").toList ++ q) =
      some ('/' :: 'p' :: '?' :: q) := rfl
  rw [h1]
  have hHash3 : idxOf '#' ('/' :: 'p' :: '?' :: q) = none := by
    rw [idxOf_cons_ne ('p' :: '?' :: q) (by decide),
      idxOf_cons_ne ('?' :: q) (by decide),
      idxOf_cons_ne q (by decide),
      idxOf_eq_none_of_not_mem hHash]
    rfl
  have h2 : queryStringOf ('/' :: 'p' :: '?' :: q) = q := by
    unfold queryStringOf
    rw [hHash3]
    rfl
  have h3 : hashThenQueryCut ('/' :: 'p' :: '?' :: q) = ("/p").toList := by
    unfold hashThenQueryCut
    rw [hHash3]
    rfl
  dsimp only
  rw [h2, h3, if_neg hqne, hparse]
  rfl

/-- C9: percent-encoding a key/value pair with the resolver's
query-string builder and parsing it back through the URL parser's query
parsing yields exactly the original pair, for all strings (reserved
characters and non-ASCII included). -/
theorem c9_roundtrip (k v : Str) :
    parseUrlString (("https://h/p?").toList ++ buildQueryString [(k, v)]) =
      some (("/p").toList, [(k, v)]) := by
  have hqdef : buildQueryString [(k, v)] =
      encodeURIComponentChars k ++ '=' :: encodeURIComponentChars v := rfl
  have hmem : ∀ bad : Char, ¬ isUnreserved bad → bad ≠ '%' → bad ≠ '=' →
      bad ∉ buildQueryString [(k, v)] := by
    intro bad hb1 hb2 hb3 hin
    rw [hqdef] at hin
    rcases List.mem_append.mp hin with h | h
    · exact not_mem_encode bad hb1 hb2 k h
    · rcases List.mem_cons.mp h with he | h
      · exact hb3 he
      · exact not_mem_encode bad hb1 hb2 v h
  have hqne : buildQueryString [(k, v)] ≠ [] := by
    rw [hqdef]
    intro he
    have := congrArg List.length he
    simp [List.length_append] at this
  have hHash : '#' ∉ buildQueryString [(k, v)] :=
    hmem '#' (by decide) (by decide) (by decide)
  have hAmp : '&' ∉ buildQueryString [(k, v)] :=
    hmem '&' (by decide) (by decide) (by decide)
  have hEqK : '=' ∉ encodeURIComponentChars k :=
    not_mem_encode '=' (by decide) (by decide) k
  have hidx : idxOf '=' (buildQueryString [(k, v)]) =
      some (encodeURIComponentChars k).length := by
    rw [hqdef]
    exact idxOf_append_first '=' (encodeURIComponentChars k) (encodeURIComponentChars v) hEqK
  have htake : (buildQueryString [(k, v)]).take (encodeURIComponentChars k).length =
      encodeURIComponentChars k := by
    rw [hqdef]
    exact List.take_left (encodeURIComponentChars k) ('=' :: encodeURIComponentChars v)
  have hdrop : (buildQueryString [(k, v)]).drop ((encodeURIComponentChars k).length + 1) =
      encodeURIComponentChars v := by
    rw [hqdef]
    have hassoc : encodeURIComponentChars k ++ '=' :: encodeURIComponentChars v =
        (encodeURIComponentChars k ++ ['=']) ++ encodeURIComponentChars v := by
      simp [List.append_assoc]
    rw [hassoc]
    refine List.drop_left' ?_
    simp
  have hpp : parsePair [] (buildQueryString [(k, v)]) = some [(k, v)] := by
    unfold parsePair
    rw [hidx]
    show (match decodeURIComponentChars
            ((buildQueryString [(k, v)]).take (encodeURIComponentChars k).length),
          decodeURIComponentChars
            ((buildQueryString [(k, v)]).drop ((encodeURIComponentChars k).length + 1)) with
      | some k2, some v2 => some (mapSet [] k2 v2)
      | _, _ => none) = some [(k, v)]
    rw [htake, hdrop, decode_encode k, decode_encode v]
    rfl
  have hparse : parseQuery (buildQueryString [(k, v)]) = some [(k, v)] := by
    unfold parseQuery
    rw [jsSplit_single hAmp, List.foldlM_cons, hpp]
    rfl
  exact parseUrlString_hp (buildQueryString [(k, v)]) hqne hHash [(k, v)] hparse
